import Mathlib

/-!
Verification of the Ateema budget-allocation and pricing core.

Shallow embedding of the pricing/allocation code:
  - `src/AteemaRag/ateema/pricing.py` (price_points, booth_season_for_date,
    effective_line_price, get_effective_unit_price, advertiser_overrides,
    apply_discounts)
  - `src/Final_Model_Ver2.0_Dazhou/legacy/Dazhou/upgrader.py`
    (greedy_fill_to_cap, run_fill_to_cap)
  - `src/Final_Model_Ver3.0_Yuchen/ateema/budget.py` (compute_pools)
  - `src/Final_Model_Ver3.0_Yuchen/ateema/models.py` (ProductRecord,
    Selection, PoolInfo)

Modelling conventions:
  - Python floats are modelled as exact rationals (`Rat`); all prices in the
    repository are decimal literals, so this is the intended arithmetic.
  - Python dicts are modelled as insertion-ordered association lists
    (`List (String × _)`); dict keys are unique, which theorems about whole
    catalogs assume via `Nodup` hypotheses on the key lists.
  - Code that can raise (`float(None)` in the seasonal resolver) is modelled
    in the `Except Unit` monad; `.error ()` is a raised exception.
-/

namespace Ateema

/-- Python `dict.get` / `dict[k]` on an insertion-ordered association list. -/
def lookupStr {α : Type} (m : List (String × α)) (k : String) : Option α :=
  match m with
  | [] => none
  | (k', v) :: rest => if k' = k then some v else lookupStr rest k

/-- Python `d[k] = v` for a key already present: replaces the value in place,
keeping insertion order. -/
def setk {α : Type} (m : List (String × α)) (k : String) (v : α) :
    List (String × α) :=
  m.map (fun kv => if kv.1 = k then (k, v) else kv)

/-- Python `str.strip()` (whitespace at both ends) on a character list. -/
def pyStrip (l : List Char) : List Char :=
  ((l.dropWhile Char.isWhitespace).reverse.dropWhile Char.isWhitespace).reverse

/-- Python `str.strip()` on a `String`. -/
def pyStripS (s : String) : String := ⟨pyStrip s.data⟩

/-- Python `str.lower()` (ASCII case mapping, structural). -/
def pyLower (s : String) : String := ⟨s.data.map Char.toLower⟩

/-- Python `str.upper()` (ASCII case mapping, structural). -/
def pyUpper (s : String) : String := ⟨s.data.map Char.toUpper⟩

/-- Python `pat in s` (substring test). -/
def Sub (pat s : String) : Prop := pat.data <:+: s.data

instance (pat s : String) : Decidable (Sub pat s) := by
  unfold Sub; exact inferInstance

/-- Python `s.startswith(pat)`. -/
def SPre (pat s : String) : Prop := pat.data <+: s.data

instance (pat s : String) : Decidable (SPre pat s) := by
  unfold SPre; exact inferInstance

/-- A `datetime.date`: (year, month, day), compared lexicographically. -/
structure PDate where
  year : Nat
  month : Nat
  day : Nat
deriving DecidableEq, Repr

/-- Python `date` comparison (lexicographic on year, month, day). -/
def pdateLT (a b : PDate) : Prop :=
  a.year < b.year ∨ (a.year = b.year ∧
    (a.month < b.month ∨ (a.month = b.month ∧ a.day < b.day)))

instance (a b : PDate) : Decidable (pdateLT a b) := by
  unfold pdateLT; exact inferInstance

/-- A well-formed calendar date (what `datetime.date` can hold). -/
def ValidDate (d : PDate) : Prop :=
  1 ≤ d.month ∧ d.month ≤ 12 ∧ 1 ≤ d.day ∧ d.day ≤ 31

instance (d : PDate) : Decidable (ValidDate d) := by
  unfold ValidDate; exact inferInstance

/-- `pricing.py _mmdd`: parse mm/dd -> mmdd integer. -/
def mmdd (d : PDate) : Nat := d.month * 100 + d.day

/-- Floor of a rational as an integer. -/
def ratFloor (q : Rat) : Int := q.num.fdiv q.den

/-- Python `round(x)` (round-half-to-even) on an exact rational. -/
def pyRoundEven (q : Rat) : Int :=
  let f := ratFloor q
  let r := q - (f : Rat)
  if r < 1/2 then f
  else if (1 : Rat)/2 < r then f + 1
  else if f % 2 = 0 then f else f + 1

/-- Python `round(x, 2)` on an exact rational. -/
def round2 (q : Rat) : Rat := (pyRoundEven (q * 100) : Rat) / 100

/-- A JSON-ish value sitting in an option dict's pricing slot.  Price maps
hold numeric values (modelled as exact rationals, per the data model);
`pother` is a present value of any other type (fails all `isinstance`
checks used by `price_points`), `absent` is a missing key. -/
inductive PField where
  | pdict (entries : List (String × Rat))
  | pnum (q : Rat)
  | pother
  | absent
deriving DecidableEq, Repr

/-- A value of a product's `duration_quarter_map`.  `num q` is any value on
which Python `float()` succeeds with result `q` (numbers, numeric strings);
`bad` is any value on which `float()` raises (caught by the code). -/
inductive DVal where
  | num (q : Rat)
  | bad
deriving DecidableEq, Repr

/-- One price-option dict of a product (`models.py` keeps these as raw
dicts; the four pricing shapes live in these three keys plus `name`). -/
structure OptDict where
  name : Option String := none
  price_usd : PField := .absent
  price_usd_by_plan : PField := .absent
  pricing : PField := .absent
deriving DecidableEq, Repr

/-- `models.py ProductRecord` (the fields consumed by the allocator). -/
structure ProductRecord where
  name : String
  price_options : List OptDict
  duration_quarter_map : List (String × DVal) := []
deriving DecidableEq, Repr

/-- Per-product metadata dict; the pricing core reads only the
`seasonal_price_windows` table (window label → option name → price). -/
structure Meta where
  seasonal_price_windows : List (String × List (String × Rat)) := []
deriving DecidableEq, Repr

/-- `models.py PoolInfo`. -/
structure PoolInfo where
  label : String
  budget : Rat
  subtotal : Rat := 0
  items : List String := []
deriving DecidableEq, Repr

/-- A pick: (option_name, tier_label, unit price). -/
abbrev Pick := String × String × Rat

/-- `models.py Selection`: product → Pick map plus rounded subtotal. -/
structure Selection where
  picks : List (String × Pick)
  subtotal : Rat
deriving DecidableEq, Repr

/-! ### Price Point Extractor (`pricing.py price_points`) -/

/-- Digits of a numeral (most significant first) to a natural number. -/
def digitsToNat (cs : List Char) : Nat :=
  cs.foldl (fun a c => a * 10 + (c.toNat - 48)) 0

/-- Python `float(s)` for a string made only of digit and `.` characters:
succeeds iff there is at most one dot and at least one digit. -/
def parsePyFloat (cs : List Char) : Option Rat :=
  if cs.count '.' ≤ 1 ∧ cs.any Char.isDigit then
    let ip := cs.takeWhile (fun c => c ≠ '.')
    let fp := (cs.dropWhile (fun c => c ≠ '.')).drop 1
    some ((digitsToNat ip : Rat) + (digitsToNat fp : Rat) / (10 : Rat) ^ fp.length)
  else none

/-- `price_points._key`'s numeric component: collect every digit and dot
character of the label (in order) and parse; `none` is Python's
`float("inf")` fallback when parsing raises. -/
def ppKey (lbl : String) : Option Rat :=
  parsePyFloat (lbl.data.filter (fun c => c.isDigit || c = '.'))

/-- The sort order of `price_points`: ascending by the `_key` tuple
`(numeric token value, price)` with a failed parse treated as `+∞`. -/
def ppRel (a b : String × Rat) : Prop :=
  match ppKey a.1, ppKey b.1 with
  | some x, some y => x < y ∨ (x = y ∧ a.2 ≤ b.2)
  | some _, none   => True
  | none,   some _ => False
  | none,   none   => a.2 ≤ b.2

instance ppRel.instDec : DecidableRel ppRel := fun a b => by
  unfold ppRel
  cases ppKey a.1 <;> cases ppKey b.1 <;> exact inferInstance

/-- The raw `(label, price)` items of the four pricing shapes, checked in
the source's fixed priority: `price_usd` as dict, `price_usd_by_plan` as
dict, `price_usd` as scalar (labelled "base"), `pricing` as dict. -/
def extractItems (opt : OptDict) : List (String × Rat) :=
  match opt.price_usd with
  | .pdict es => es
  | pusd =>
    match opt.price_usd_by_plan with
    | .pdict es => es
    | _ =>
      match pusd with
      | .pnum q => [("base", q)]
      | _ =>
        match opt.pricing with
        | .pdict es => es
        | _ => []

/-- `pricing.py price_points`: extract the items of the first matching
pricing shape and stable-sort them by `_key` (Python `sorted` is a stable
sort; `insertionSort` with a total preorder is the same stable sort). -/
def price_points (opt : OptDict) : List (String × Rat) :=
  List.insertionSort ppRel (extractItems opt)

/-! ### Seasonal Window Resolver (`pricing.py booth_season_for_date`) -/

/-- `pricing.py EXACT_WINDOWS` in its dict insertion order. -/
def EXACT_WINDOWS : List (String × Nat × Nat) :=
  [("4/15-6/14", 415, 614), ("6/15-8/31", 615, 831), ("9/1-9/30", 901, 930)]

/-- `pricing.py NAMED_WINDOWS` in its dict insertion order. -/
def NAMED_WINDOWS : List (String × Nat × Nat) :=
  [("Before Valentine\x27s Day", 101, 213), ("After Valentine\x27s Day", 214, 414),
   ("Before Halloween", 1001, 1031), ("Before Christmas", 1101, 1224)]

/-- One window-family loop of `booth_season_for_date`: scan the windows in
order; on the first window whose label is in the seasonal map and whose
range contains the date, `return float(seasonal_map[label].get(option_name,
None))` — which succeeds with the option's listed price or raises
`TypeError` (`float(None)`) when the option is absent from the matched
window.  `none` means the loop fell through without returning. -/
def seekWindow (ws : List (String × Nat × Nat))
    (smap : List (String × List (String × Rat))) (md : Nat)
    (optName : String) : Option (Except Unit Rat) :=
  match ws with
  | [] => none
  | (label, s, e) :: rest =>
    match lookupStr smap label with
    | some wmap =>
      if s ≤ md ∧ md ≤ e then
        some (match lookupStr wmap optName with
              | some p => .ok p
              | none => .error ())
      else seekWindow rest smap md optName
    | none => seekWindow rest smap md optName

/-- `pricing.py booth_season_for_date`: `.ok none` is Python `None` (no
override); `.error ()` is the `TypeError` raised by `float(None)`. -/
def booth_season_for_date (meta : Meta) (option_name : String)
    (chosen_date : PDate) : Except Unit (Option Rat) :=
  let seasonal_map := meta.seasonal_price_windows
  if seasonal_map = [] then .ok none
  else
    match seekWindow EXACT_WINDOWS seasonal_map (mmdd chosen_date) option_name with
    | some (.ok p) => .ok (some p)
    | some (.error e) => .error e
    | none =>
      match seekWindow NAMED_WINDOWS seasonal_map (mmdd chosen_date) option_name with
      | some (.ok p) => .ok (some p)
      | some (.error e) => .error e
      | none => .ok none

/-! ### Effective line price (`pricing.py effective_line_price`) -/

/-- `pricing.py effective_line_price`.  `not product` is always false (a
dataclass instance is truthy), so only the `duration_quarter_map` emptiness
check remains; a `None` map and an empty map behave identically and are both
modelled as `[]`. -/
def effective_line_price (product : ProductRecord) (tier_label : String)
    (base_price : Rat) : Rat :=
  if product.duration_quarter_map = [] then base_price
  else
    let lbl := pyUpper tier_label
    let dur_raw := (lookupStr product.duration_quarter_map lbl).getD (.num 1)
    let duration : Rat := match dur_raw with | .num q => q | .bad => 1
    base_price * max duration 1

/-! ### Advertiser Override Resolver (`pricing.py advertiser_overrides`) -/

/-- `pricing.py advertiser_overrides`: `(new_price, label)` to apply an
override, `(none, none)` when no override applies. -/
def advertiser_overrides (product_name option_name : String)
    (_base_price : Rat) (_tier : String) (is_advertiser : Bool) :
    Option Rat × Option String :=
  if is_advertiser then
    let name := pyStripS product_name
    let opt := pyStripS option_name
    if name = "Email Blast" ∧ Sub "Blast Email - concierge" opt then
      -- the inner `if is_advertiser` of the source is true on this path
      if is_advertiser then (some 450, some "Existing advertiser contract rate")
      else (none, none)
    else if name = "Ambassador Program" then
      if is_advertiser then
        if SPre "Standard Ambassador Program" opt then
          (some 2950, some "Existing advertiser – with any campaign rate")
        else if SPre "Ambassador - Concierge Intro" opt then
          (some 2750, some "Existing advertiser – with any campaign rate")
        else (none, none)
      else (none, none)
    else (none, none)
  else (none, none)

/-! ### Discount Resolver (`pricing.py apply_discounts`) -/

/-- The part of `apply_discounts` after the Hotel Meetup 2026 branch:
advertiser override first (short-circuits when it fires), then the closed
per-product bundle/prepay table.  `name`/`opt` are the already-stripped
names computed at the top of `apply_discounts`. -/
def apply_discounts_rest (name opt : String) (base_price final_price : Rat)
    (tier : String) (has_other_products prepay_full_year is_advertiser : Bool) :
    Rat × Option String :=
  match advertiser_overrides name opt final_price tier is_advertiser with
  | (some adv_price, adv_label) => (adv_price, adv_label)
  | (none, _) =>
    if name = "Email Blast" ∧ Sub "Blast Email - concierge" opt then
      if has_other_products then
        (450, some "Contract bundle price (with other products)")
      else (750, none)
    else if name = "Email Blast" ∧ Sub "Planner Eblast" opt then
      (final_price, none)
    else if name = "Chicago Does Reels" then
      if has_other_products then (895, some "With other purchase discount")
      else (995, none)
    else if name = "Ambassador Program" then
      if SPre "Standard Ambassador Program" opt then
        if has_other_products then (2950, some "With Any Campaign rate")
        else (3200, none)
      else if SPre "Ambassador - Concierge Intro" opt then
        if has_other_products then (2750, some "With Any Campaign rate")
        else (3000, none)
      else (final_price, none)
    else if name = "Chicago Does Interactive Map" then
      if prepay_full_year then
        (round2 (base_price * (9 / 10)), some "Prepay entire year – 10% off")
      else (final_price, none)
    else (final_price, none)

/-- `pricing.py apply_discounts` (the spec's `resolve_discount`): the dated
Hotel Meetup 2026 early-bird branch first, then `apply_discounts_rest`. -/
def apply_discounts (product_name option_name : String) (base_price : Rat)
    (tier : String) (has_other_products prepay_full_year is_advertiser : Bool)
    (billing_date : Option PDate) : Rat × Option String :=
  let name := pyStripS product_name
  let opt := pyStripS option_name
  let final_price := base_price
  match billing_date with
  | some bd =>
    if name = "Hotel Meetup" ∧ Sub "Hotel Meetup 2026" opt then
      if Sub "Early Bird Rate - Ends August 1" tier then
        if pdateLT bd ⟨bd.year, 8, 1⟩ then
          (2395, some "Early Bird Rate - Ends August 1")
        else (2595, none)
      else (final_price, none)
    else
      apply_discounts_rest name opt base_price final_price tier
        has_other_products prepay_full_year is_advertiser
  | none =>
    apply_discounts_rest name opt base_price final_price tier
      has_other_products prepay_full_year is_advertiser

/-! ### Effective Price Pipeline (`pricing.py get_effective_unit_price`) -/

/-- `pricing.py get_effective_unit_price`: seasonal override (when a date is
given), then advertiser override on the seasonal-adjusted price.  The
seasonal resolver's possible `TypeError` propagates. -/
def get_effective_unit_price (product_name option_name : String)
    (base_price : Rat) (meta : Meta) (chosen_date : Option PDate)
    (is_advertiser : Bool) : Except Unit Rat := do
  let eff ←
    match chosen_date with
    | some d =>
      match booth_season_for_date meta option_name d with
      | .error e => .error e
      | .ok (some seasonal) => pure seasonal
      | .ok none => pure base_price
    | none => pure base_price
  match advertiser_overrides product_name option_name eff "" is_advertiser with
  | (some adv_price, _) => pure adv_price
  | (none, _) => pure eff

/-! ### Greedy Fill-to-Cap Allocator (`upgrader.py greedy_fill_to_cap`)

The source enumerates each product's `(option, tier)` candidates twice with
identical arguments: once in the Phase A baseline loop and once per upgrade
pass.  All the calls involved are pure, so the enumeration is hoisted into
`computeEnums` (run once, in the error monad — a raised `TypeError` in the
seasonal resolver aborts the whole allocation exactly as in the source) and
both phases consume its result.  Candidate line prices are recomputed from
`effective_line_price` wherever the source recomputes them. -/

/-- Python loop over a list where the body may raise: stops at the first
error (`List.mapM` specialised to `Except Unit`, kept structural). -/
def mapME {α β : Type} (f : α → Except Unit β) : List α → Except Unit (List β)
  | [] => .ok []
  | x :: xs =>
    match f x with
    | .error e => .error e
    | .ok y =>
      match mapME f xs with
      | .error e => .error e
      | .ok ys => .ok (y :: ys)

/-- Concatenation of a list of lists. -/
def concatAll {α : Type} : List (List α) → List α
  | [] => []
  | l :: ls => l ++ concatAll ls

/-- `opt.get("name", pname)`. -/
def optNameOf (pname : String) (opt : OptDict) : String := opt.name.getD pname

/-- The Summit-Booth exclusivity filter of `greedy_fill_to_cap` (identical
in Phase A and Phase B): for a product whose lowercased name contains both
"summit" and "booth", advertiser clients skip options marked
non-advertiser, non-advertiser clients skip options exclusively marked
advertiser; `true` means the option is skipped (`continue`). -/
def summitSkip (pname opt_name : String) (is_advertiser : Bool) : Bool :=
  if Sub "summit" (pyLower pname) ∧ Sub "booth" (pyLower pname) then
    let low := pyLower opt_name
    let has_non : Bool := Sub "non-advertiser" low ∨ Sub "non advertiser" low
    let has_adv : Bool := Sub "advertiser" low ∧ ¬(has_non = true)
    if is_advertiser then has_non else has_adv
  else false

/-- All candidates `(opt_name, lbl, eff_base)` contributed by one option:
each `(lbl, base_price)` of `price_points` with its effective unit price
(seasonal + advertiser override), in order; raises when the pipeline
raises. -/
def enumOption (pname : String) (opt : OptDict) (m : Meta)
    (chosen_date : Option PDate) (is_advertiser : Bool) :
    Except Unit (List Pick) :=
  mapME
    (fun lp =>
      match get_effective_unit_price pname (optNameOf pname opt) lp.2 m
          chosen_date is_advertiser with
      | .error e => .error e
      | .ok eff => .ok (optNameOf pname opt, lp.1, eff))
    (price_points opt)

/-- All candidates of one product: its options minus the Summit-Booth
exclusions, flattened in source order. -/
def enumProductCands (pname : String) (product : ProductRecord) (m : Meta)
    (chosen_date : Option PDate) (is_advertiser : Bool) :
    Except Unit (List Pick) :=
  match mapME (fun opt => enumOption pname opt m chosen_date is_advertiser)
      (product.price_options.filter
        (fun opt => !summitSkip pname (optNameOf pname opt) is_advertiser)) with
  | .error e => .error e
  | .ok ls => .ok (concatAll ls)

/-- A product together with its enumerated candidate list. -/
structure EnumEntry where
  pname : String
  prod : ProductRecord
  cands : List Pick
deriving DecidableEq, Repr

/-- `products[pname]` / candidate lookup during the upgrade loop. -/
def findEntry (enums : List EnumEntry) (k : String) : Option EnumEntry :=
  match enums with
  | [] => none
  | e :: rest => if e.pname = k then some e else findEntry rest k

/-- The per-product candidate enumeration for the whole catalog, in catalog
order; `meta.get(pname, {})` supplies each product's metadata. -/
def computeEnums (products : List (String × ProductRecord))
    (meta : List (String × Meta)) (chosen_date : Option PDate)
    (is_advertiser : Bool) : Except Unit (List EnumEntry) :=
  mapME
    (fun pe =>
      match enumProductCands pe.1 pe.2 ((lookupStr meta pe.1).getD ⟨[]⟩)
          chosen_date is_advertiser with
      | .error e => .error e
      | .ok cs => .ok ⟨pe.1, pe.2, cs⟩)
    products

/-- `effective_line_price(product, lbl, eff_base)` of a candidate. -/
def lineOf (product : ProductRecord) (c : Pick) : Rat :=
  effective_line_price product c.2.1 c.2.2

/-- Phase A per-product best tracking: `best is None or line < best_line`
keeps the first global minimum in enumeration order. -/
def bestCand (product : ProductRecord) (cands : List Pick) : Option Pick :=
  cands.foldl
    (fun best c =>
      match best with
      | none => some c
      | some b => if lineOf product c < lineOf product b then some c else some b)
    none

/-- Phase A: baseline picks and baseline subtotal, in catalog order; a
product with no candidates contributes nothing. -/
def baselineFrom : List EnumEntry → List (String × Pick) × Rat
  | [] => ([], 0)
  | e :: rest =>
    match bestCand e.prod e.cands with
    | some c =>
      ((e.pname, c) :: (baselineFrom rest).1,
       lineOf e.prod c + (baselineFrom rest).2)
    | none => baselineFrom rest

/-- The enum entry for a product name; the default is never reached on the
allocator's states (every picked name has an entry). -/
def entryFor (enums : List EnumEntry) (k : String) : EnumEntry :=
  (findEntry enums k).getD ⟨k, ⟨"", [], []⟩, []⟩

/-- The sorted strict-upgrade candidate list of one snapshot entry: the
strictly-more-expensive candidates, sorted ascending by line price (stable,
like Python `list.sort`). -/
def stepUpgrades (enums : List EnumEntry) (entry : String × Pick) : List Pick :=
  let e := entryFor enums entry.1
  List.insertionSort (fun a b => lineOf e.prod a ≤ lineOf e.prod b)
    (e.cands.filter (fun c => decide (lineOf e.prod entry.2 < lineOf e.prod c)))

/-- The affordability test `subtotal - cur_line + new_line <= budget` for a
candidate upgrade of the snapshot entry. -/
def stepPred (budget : Rat) (enums : List EnumEntry) (subtotal : Rat)
    (entry : String × Pick) (c : Pick) : Bool :=
  decide (subtotal - lineOf (entryFor enums entry.1).prod entry.2
    + lineOf (entryFor enums entry.1).prod c ≤ budget)

/-- One product's turn inside an upgrade pass: adopt the first (cheapest)
strict upgrade whose adoption keeps the subtotal within budget.  `entry`
comes from the pass's snapshot of the picks. -/
def oneProductStep (budget : Rat) (enums : List EnumEntry)
    (acc : List (String × Pick) × Rat × Bool) (entry : String × Pick) :
    List (String × Pick) × Rat × Bool :=
  let (picks, subtotal, improved) := acc
  match (stepUpgrades enums entry).find? (stepPred budget enums subtotal entry) with
  | some c =>
    (setk picks entry.1 c,
     subtotal - lineOf (entryFor enums entry.1).prod entry.2
       + lineOf (entryFor enums entry.1).prod c,
     true)
  | none => (picks, subtotal, improved)

/-- One full upgrade pass (`for pname, ... in list(picks.items())`): fold
the step over the pass-start snapshot of the picks, threading the updated
picks, subtotal and `improved` flag. -/
def upgradePass (budget : Rat) (enums : List EnumEntry)
    (picks : List (String × Pick)) (subtotal : Rat) :
    List (String × Pick) × Rat × Bool :=
  picks.foldl (oneProductStep budget enums) (picks, subtotal, false)

/-- The `while improved` loop, fuel-indexed; `totalFuel` below is proved
sufficient (claim C4). -/
def upgradeLoop (budget : Rat) (enums : List EnumEntry) :
    Nat → List (String × Pick) → Rat → List (String × Pick) × Rat
  | 0, picks, subtotal => (picks, subtotal)
  | fuel + 1, picks, subtotal =>
    let r := upgradePass budget enums picks subtotal
    if r.2.2 then upgradeLoop budget enums fuel r.1 r.2.1
    else (r.1, r.2.1)

/-- Fuel bound for the `while improved` loop: every adopted upgrade strictly
shrinks the count of strictly-pricier candidates of the upgraded product, so
the number of improving passes is at most the (crude) product bound below;
any sufficient fuel makes the fuel-indexed loop equal the source's
unbounded loop. -/
def totalFuel (enums : List EnumEntry) : Nat :=
  1 + enums.length * (enums.map (fun e => e.cands.length)).sum

/-- `upgrader.py greedy_fill_to_cap`: Phase A baseline + Phase B upgrade
loop, final subtotal rounded to 2 decimals. -/
def greedy_fill_to_cap (budget : Rat) (products : List (String × ProductRecord))
    (meta : List (String × Meta)) (chosen_date : Option PDate)
    (is_advertiser : Bool) : Except Unit Selection :=
  match computeEnums products meta chosen_date is_advertiser with
  | .error e => .error e
  | .ok enums =>
    let b := baselineFrom enums
    let r := upgradeLoop budget enums (totalFuel enums) b.1 b.2
    .ok ⟨r.1, round2 r.2⟩

/-! ### Pool Orchestrator (`upgrader.py run_fill_to_cap`,
`budget.py compute_pools`) -/

/-- `upgrader.py run_fill_to_cap`: unrounded sub-budgets
`total_budget * (pct / 100)`, one allocator run per pool, grand total
rounded to 2 decimals. -/
def run_fill_to_cap (total_budget tourist_pct industry_pct : Rat)
    (t_set i_set : List (String × ProductRecord)) (meta : List (String × Meta))
    (chosen_date : Option PDate) (is_advertiser : Bool) :
    Except Unit (Selection × Selection × Rat) :=
  let t_budget := total_budget * (tourist_pct / 100)
  let i_budget := total_budget * (industry_pct / 100)
  match greedy_fill_to_cap t_budget t_set meta chosen_date is_advertiser with
  | .error e => .error e
  | .ok t_sel =>
    match greedy_fill_to_cap i_budget i_set meta chosen_date is_advertiser with
    | .error e => .error e
    | .ok i_sel => .ok (t_sel, i_sel, round2 (t_sel.subtotal + i_sel.subtotal))

/-- `budget.py compute_pools` (Ver3.0): sub-budgets rounded to 2 decimals. -/
def compute_pools (total_budget tourist_pct industry_pct : Rat) :
    PoolInfo × PoolInfo :=
  (⟨"tourist", round2 (total_budget * (tourist_pct / 100)), 0, []⟩,
   ⟨"industry", round2 (total_budget * (industry_pct / 100)), 0, []⟩)

/-- The spec's `duration_multiplier(tier)`: the product's duration-quarter
entry for the uppercased tier label, with a missing entry, an unparsable
value, and an absent or empty map all counting as 1. -/
def duration_multiplier (p : ProductRecord) (tier_label : String) : Rat :=
  match lookupStr p.duration_quarter_map (pyUpper tier_label) with
  | some (.num q) => q
  | some .bad => 1
  | none => 1

/-- True iff the string is nonempty with non-whitespace first and last
characters (every pattern used by the source has this shape). -/
def edgeOk (pat : String) : Bool :=
  match pat.data with
  | [] => false
  | c :: _ =>
    match pat.data.reverse with
    | [] => false
    | d :: _ => !c.isWhitespace && !d.isWhitespace

/-- The key the spec describes for `price_points`: the LEADING numeric token
of the label (the maximal initial run of digit/dot characters), `none` = +∞
when it does not parse as a number. -/
def specLeadKey (lbl : String) : Option Rat :=
  parsePyFloat (lbl.data.takeWhile (fun c => c.isDigit || c = '.'))

/-- The sort order the spec describes for `price_points`: ascending by
leading numeric token (non-numeric labels last, as +∞), ties broken by
ascending price. -/
def specLeadRel (a b : String × Rat) : Prop :=
  match specLeadKey a.1, specLeadKey b.1 with
  | some x, some y => x < y ∨ (x = y ∧ a.2 ≤ b.2)
  | some _, none   => True
  | none,   some _ => False
  | none,   none   => a.2 ≤ b.2

instance specLeadRel.instDec : DecidableRel specLeadRel := fun a b => by
  unfold specLeadRel
  cases specLeadKey a.1 <;> cases specLeadKey b.1 <;> exact inferInstance

/-! ### Concrete fixture catalog used by allocator witnesses -/

/-- Fixture option with a single scalar price. -/
def wOptA : OptDict := ⟨some "OptA", .pnum 100, .absent, .absent⟩

/-- Fixture option with a tier→price map. -/
def wOptB : OptDict := ⟨some "OptB", .pdict [("1X", 150), ("2X", 300)], .absent, .absent⟩

/-- Fixture product. -/
def wProd : ProductRecord := ⟨"Prod", [wOptA, wOptB], []⟩

/-- Fixture one-product catalog. -/
def wCatalog : List (String × ProductRecord) := [("Prod", wProd)]

/-- The candidate enumeration of `wCatalog` (no date, no advertiser). -/
def wEnums : List EnumEntry :=
  [⟨"Prod", wProd, [("OptA", "base", 100), ("OptB", "1X", 150),
    ("OptB", "2X", 300)]⟩]

end Ateema

deriving instance DecidableEq for Except

namespace Ateema

/-! ## Substring survival under `str.strip()` -/

/-- A substring whose first character is not whitespace survives
`dropWhile isWhitespace` on the enclosing list. -/
theorem infix_dropWhile_ws {c : Char} {cs l : List Char}
    (hc : c.isWhitespace = false) (h : (c :: cs) <:+: l) :
    (c :: cs) <:+: l.dropWhile Char.isWhitespace := by
  obtain ⟨s, t, hst⟩ := h
  subst hst
  induction s with
  | nil =>
    rw [List.nil_append, List.cons_append,
      List.dropWhile_cons_of_neg (by simp [hc])]
    exact ⟨[], t, by simp⟩
  | cons a s ih =>
    simp only [List.cons_append, List.append_assoc] at ih ⊢
    by_cases ha : Char.isWhitespace a
    · rw [List.dropWhile_cons_of_pos ha]
      simpa [List.append_assoc] using ih
    · rw [List.dropWhile_cons_of_neg ha]
      exact ⟨a :: s, t, by simp⟩

/-- A substring with non-whitespace first and last characters survives
`pyStrip` on the enclosing list. -/
theorem infix_pyStrip {p l : List Char} {c d : Char} {cs ds : List Char}
    (hp : p = c :: cs) (hq : p.reverse = d :: ds)
    (hc : c.isWhitespace = false) (hd : d.isWhitespace = false)
    (h : p <:+: l) : p <:+: pyStrip l := by
  subst hp
  have h1 := infix_dropWhile_ws hc h
  have h2 := h1.reverse
  rw [hq] at h2
  have h3 := infix_dropWhile_ws hd h2
  have h4 := h3.reverse
  rw [← hq] at h4
  simpa [pyStrip] using h4

/-- Python `pat in s` implies `pat in s.strip()` for an edge-clean pattern. -/
theorem sub_pyStripS {pat s : String} (hedge : edgeOk pat = true)
    (h : Sub pat s) : Sub pat (pyStripS s) := by
  unfold edgeOk at hedge
  cases hp : pat.data with
  | nil => rw [hp] at hedge; simp at hedge
  | cons c cs =>
    cases hq : pat.data.reverse with
    | nil => rw [hq] at hedge; rw [hp] at hedge; simp at hedge
    | cons d ds =>
      rw [hq, hp] at hedge
      simp only [Bool.and_eq_true, Bool.not_eq_true'] at hedge
      show pat.data <:+: pyStrip s.data
      exact infix_pyStrip hp hq hedge.1 hedge.2 h

/-! ## Claim C2 (seasonal resolver, error handling) -/

/-- C2: the seasonal resolver on a date no window contains does return "no
override" (second conjunct), but when a window matches and the option has no
listed price inside it, `float(seasonal_map[label].get(option_name, None))`
raises `TypeError` instead of returning `None`: the code contradicts the
graceful-fallback intent visible in its own `.get(option_name, None)`
default.  Failing input: seasonal table `{"4/15-6/14": {"Other Option":
100.0}}`, option `"Summit Booth"`, date 2026-05-01. -/
theorem seasonal_missing_option_raises :
    booth_season_for_date ⟨[("4/15-6/14", [("Other Option", 100)])]⟩
      "Summit Booth" ⟨2026, 5, 1⟩ = .error () ∧
    booth_season_for_date ⟨[("4/15-6/14", [("Other Option", 100)])]⟩
      "Summit Booth" ⟨2026, 12, 1⟩ = .ok none := by
  exact ⟨by decide!, by decide!⟩

/-! ## Claim C8 (effective_line_price) -/

/-- C8: `effective_line_price(tier, base) = base × max(duration_multiplier
(tier), 1)`, where a missing or unparsable duration multiplier (including an
absent or empty multiplier map) counts as 1; hence the result is never below
the base price for non-negative bases. -/
theorem effective_line_price_duration (p : ProductRecord) (tier : String)
    (base : Rat) :
    effective_line_price p tier base = base * max (duration_multiplier p tier) 1 ∧
    (0 ≤ base → base ≤ effective_line_price p tier base) := by
  have hmain :
      effective_line_price p tier base = base * max (duration_multiplier p tier) 1 := by
    unfold effective_line_price duration_multiplier
    by_cases hm : p.duration_quarter_map = []
    · rw [if_pos hm, hm]
      simp [lookupStr, max_self]
    · rw [if_neg hm]
      cases hl : lookupStr p.duration_quarter_map (pyUpper tier) with
      | none => simp [hl]
      | some dv => cases dv with
        | num q => simp [hl]
        | bad => simp [hl]
  refine ⟨hmain, fun hb => ?_⟩
  rw [hmain]
  exact le_mul_of_one_le_right hb (le_max_right _ _)

/-- Witness for C8 at a concrete product, tier and base price. -/
theorem effective_line_price_duration_witness :
    effective_line_price ⟨"P", [], [("1X", .num 3)]⟩ "1x" 100 =
      100 * max (duration_multiplier ⟨"P", [], [("1X", .num 3)]⟩ "1x") 1 ∧
    (100 : Rat) ≤ effective_line_price ⟨"P", [], [("1X", .num 3)]⟩ "1x" 100 :=
  ⟨(effective_line_price_duration ⟨"P", [], [("1X", .num 3)]⟩ "1x" 100).1,
   (effective_line_price_duration ⟨"P", [], [("1X", .num 3)]⟩ "1x" 100).2
     (by decide!)⟩

/-! ## Claim C7 (price_points extractor) -/

/-- Counterexample to C7 as stated: the code's `_key` collects EVERY digit
and dot character of the label, not just the leading numeric token.  For
`price_usd = {"2x9": 100, "3": 100}` the code keys are 29 and 3, so the
output is `[("3", 100), ("2x9", 100)]`, which is not sorted by the leading
numeric tokens (2 for "2x9", 3 for "3"). -/
theorem price_points_not_leading_token_sorted :
    price_points ⟨none, .pdict [("2x9", 100), ("3", 100)], .absent, .absent⟩ =
      [("3", 100), ("2x9", 100)] ∧
    ¬ List.Pairwise specLeadRel
        (price_points ⟨none, .pdict [("2x9", 100), ("3", 100)], .absent, .absent⟩) := by
  exact ⟨by decide!, by decide!⟩

theorem ppRel_total : ∀ a b : String × Rat, ppRel a b ∨ ppRel b a := by
  intro a b
  unfold ppRel
  cases ppKey a.1 with
  | none =>
    cases ppKey b.1 with
    | none => exact le_total a.2 b.2
    | some y => exact Or.inr trivial
  | some x =>
    cases ppKey b.1 with
    | none => exact Or.inl trivial
    | some y =>
      rcases lt_trichotomy x y with h | h | h
      · exact Or.inl (Or.inl h)
      · rcases le_total a.2 b.2 with hp | hp
        · exact Or.inl (Or.inr ⟨h, hp⟩)
        · exact Or.inr (Or.inr ⟨h.symm, hp⟩)
      · exact Or.inr (Or.inl h)

theorem ppRel_trans : ∀ a b c : String × Rat,
    ppRel a b → ppRel b c → ppRel a c := by
  intro a b c
  unfold ppRel
  cases ppKey a.1 with
  | none =>
    cases ppKey b.1 with
    | none =>
      cases ppKey c.1 with
      | none => exact fun h1 h2 => le_trans h1 h2
      | some z => exact fun h1 h2 => h2.elim
    | some y => exact fun h1 _ => h1.elim
  | some x =>
    cases ppKey b.1 with
    | none =>
      cases ppKey c.1 with
      | none => exact fun _ _ => trivial
      | some z => exact fun _ h2 => h2.elim
    | some y =>
      cases ppKey c.1 with
      | none => exact fun _ _ => trivial
      | some z =>
        rintro (h1 | ⟨rfl, hp1⟩) (h2 | ⟨rfl, hp2⟩)
        · exact Or.inl (lt_trans h1 h2)
        · exact Or.inl h1
        · exact Or.inl h2
        · exact Or.inr ⟨rfl, le_trans hp1 hp2⟩

/-- C7 as amended: `price_points` checks the four pricing shapes in the
source's fixed priority (`extractItems`), and returns those `(label, price)`
pairs as a permutation sorted ascending by the numeric value of ALL digit
and dot characters collected from the label in order (not just the leading
token), with unparsable collections sorting last as +∞ and ties broken by
ascending price; an option matching no shape yields the empty list (and the
function is total — malformed tokens never raise). -/
theorem price_points_sorted_by_collected_digits (opt : OptDict) :
    List.Pairwise ppRel (price_points opt) ∧
    (price_points opt).Perm (extractItems opt) ∧
    ((∀ es, opt.price_usd ≠ .pdict es) → (∀ q, opt.price_usd ≠ .pnum q) →
     (∀ es, opt.price_usd_by_plan ≠ .pdict es) →
     (∀ es, opt.pricing ≠ .pdict es) →
     price_points opt = []) := by
  haveI : IsTotal (String × Rat) ppRel := ⟨ppRel_total⟩
  haveI : IsTrans (String × Rat) ppRel := ⟨ppRel_trans⟩
  refine ⟨List.sorted_insertionSort ppRel (extractItems opt),
    List.perm_insertionSort ppRel (extractItems opt), ?_⟩
  intro h1 h2 h3 h4
  unfold price_points extractItems
  cases hpu : opt.price_usd with
  | pdict es => exact absurd hpu (h1 es)
  | pnum q => exact absurd hpu (h2 q)
  | pother =>
    cases hpl : opt.price_usd_by_plan with
    | pdict es => exact absurd hpl (h3 es)
    | pnum q =>
      cases hpr : opt.pricing with
      | pdict es => exact absurd hpr (h4 es)
      | pnum q' => rfl
      | pother => rfl
      | absent => rfl
    | pother =>
      cases hpr : opt.pricing with
      | pdict es => exact absurd hpr (h4 es)
      | pnum q' => rfl
      | pother => rfl
      | absent => rfl
    | absent =>
      cases hpr : opt.pricing with
      | pdict es => exact absurd hpr (h4 es)
      | pnum q' => rfl
      | pother => rfl
      | absent => rfl
  | absent =>
    cases hpl : opt.price_usd_by_plan with
    | pdict es => exact absurd hpl (h3 es)
    | pnum q =>
      cases hpr : opt.pricing with
      | pdict es => exact absurd hpr (h4 es)
      | pnum q' => rfl
      | pother => rfl
      | absent => rfl
    | pother =>
      cases hpr : opt.pricing with
      | pdict es => exact absurd hpr (h4 es)
      | pnum q' => rfl
      | pother => rfl
      | absent => rfl
    | absent =>
      cases hpr : opt.pricing with
      | pdict es => exact absurd hpr (h4 es)
      | pnum q' => rfl
      | pother => rfl
      | absent => rfl

/-- Witness for C7 (amended): an option with no pricing shape yields the
empty list. -/
theorem price_points_sorted_by_collected_digits_witness :
    price_points ⟨some "X", .pother, .pother, .pother⟩ = [] :=
  (price_points_sorted_by_collected_digits
      ⟨some "X", .pother, .pother, .pother⟩).2.2
    (fun _ h => PField.noConfusion h) (fun _ h => PField.noConfusion h)
    (fun _ h => PField.noConfusion h) (fun _ h => PField.noConfusion h)

/-! ## Claim C5 (Hotel Meetup 2026 early bird) -/

/-- C5: for product "Hotel Meetup", any option containing "Hotel Meetup
2026" and tier "Early Bird Rate - Ends August 1": a billing date strictly
before August 1 of its year (month < 8 for a valid date) yields 2395.0 with
the early-bird label; a billing date on or after August 1 (month ≥ 8)
yields the retail 2595.0 with no label, although the early-bird tier was
requested. -/
theorem hotel_meetup_early_bird (optn : String)
    (hop : Sub "Hotel Meetup 2026" optn) (bp : Rat) (f1 f2 f3 : Bool)
    (bd : PDate) (hv : ValidDate bd) :
    (bd.month < 8 →
      apply_discounts "Hotel Meetup" optn bp "Early Bird Rate - Ends August 1"
        f1 f2 f3 (some bd) = (2395, some "Early Bird Rate - Ends August 1")) ∧
    (8 ≤ bd.month →
      apply_discounts "Hotel Meetup" optn bp "Early Bird Rate - Ends August 1"
        f1 f2 f3 (some bd) = (2595, none)) := by
  have hsub : Sub "Hotel Meetup 2026" (pyStripS optn) :=
    sub_pyStripS (by decide) hop
  have hname : pyStripS "Hotel Meetup" = "Hotel Meetup" := by decide
  have hEB : Sub "Early Bird Rate - Ends August 1"
      "Early Bird Rate - Ends August 1" := List.infix_refl _
  have hlt : pdateLT bd ⟨bd.year, 8, 1⟩ ↔ bd.month < 8 := by
    obtain ⟨h1, h2, h3, h4⟩ := hv
    unfold pdateLT
    dsimp only
    constructor
    · rintro (h | ⟨-, h | ⟨-, h⟩⟩)
      · exact absurd h (lt_irrefl _)
      · exact h
      · omega
    · intro h
      exact Or.inr ⟨rfl, Or.inl h⟩
  constructor
  · intro hm
    simp [apply_discounts, hname, hsub, hEB, hlt, hm]
  · intro hm
    simp [apply_discounts, hname, hsub, hEB, hlt, Nat.not_lt.mpr hm]

/-- Witness for C5: July 1 billing date yields the early-bird price. -/
theorem hotel_meetup_early_bird_witness :
    apply_discounts "Hotel Meetup" "Hotel Meetup 2026 - Std" 2595
      "Early Bird Rate - Ends August 1" false false false (some ⟨2026, 7, 1⟩) =
      (2395, some "Early Bird Rate - Ends August 1") :=
  (hotel_meetup_early_bird "Hotel Meetup 2026 - Std" (by decide) 2595
    false false false ⟨2026, 7, 1⟩ (by decide)).1 (by decide)

/-! ## Claim C6 (advertiser overrides) -/

/-- C6: `advertiser_overrides` returns "no override" for every input when
`is_advertiser` is false; for an advertiser, product "Email Blast" with an
option containing "Blast Email - concierge" yields exactly 450.0 labelled
"Existing advertiser contract rate"; and inside `apply_discounts` this
override fires before, and short-circuits, the generic per-product
bundle/prepay rules (the result ignores the bundle/prepay flags). -/
theorem advertiser_override_rules :
    (∀ (pn optn : String) (bp : Rat) (tier : String),
      advertiser_overrides pn optn bp tier false = (none, none)) ∧
    (∀ (optn : String) (bp : Rat) (tier : String),
      Sub "Blast Email - concierge" optn →
      advertiser_overrides "Email Blast" optn bp tier true =
        (some 450, some "Existing advertiser contract rate")) ∧
    (∀ (optn : String) (bp : Rat) (tier : String) (hop ppy : Bool)
        (bd : Option PDate),
      Sub "Blast Email - concierge" optn →
      apply_discounts "Email Blast" optn bp tier hop ppy true bd =
        (450, some "Existing advertiser contract rate")) := by
  have hname : pyStripS "Email Blast" = "Email Blast" := by decide
  refine ⟨fun pn optn bp tier => ?_, fun optn bp tier hsub => ?_,
    fun optn bp tier hop ppy bd hsub => ?_⟩
  · simp [advertiser_overrides]
  · have h1 : Sub "Blast Email - concierge" (pyStripS optn) :=
      sub_pyStripS (by decide) hsub
    simp [advertiser_overrides, hname, h1]
  · have h1 : Sub "Blast Email - concierge" (pyStripS optn) :=
      sub_pyStripS (by decide) hsub
    have h2 : Sub "Blast Email - concierge" (pyStripS (pyStripS optn)) :=
      sub_pyStripS (by decide) h1
    cases bd with
    | none =>
      simp [apply_discounts, apply_discounts_rest, advertiser_overrides,
        hname, h2]
    | some d =>
      simp [apply_discounts, apply_discounts_rest, advertiser_overrides,
        hname, h2]

/-- Witness for C6: the concierge Email Blast override at a concrete call,
with the bundle flag off (the generic bundle rule would give 750.0). -/
theorem advertiser_override_rules_witness :
    apply_discounts "Email Blast" "Blast Email - concierge" 750 "" false
      false true none = (450, some "Existing advertiser contract rate") :=
  advertiser_override_rules.2.2 "Blast Email - concierge" 750 "" false false
    none (by decide)

/-! ## Claim C10 (billing_date gates the Hotel Meetup branch) -/

/-- C10: with no billing date the Hotel Meetup 2026 substitution never
fires — even with the early-bird tier the base price passes through
(evaluation continues into the advertiser-override and per-product rules,
none of which match "Hotel Meetup"); with a billing date and a matching
product/option the function returns from the dated branch for every tier:
the result is independent of the advertiser/bundle/prepay flags (the
advertiser-override check is never reached), and a non-early-bird tier
passes the base price through. -/
theorem billing_date_gates_hotel_branch :
    (∀ (optn : String), Sub "Hotel Meetup 2026" optn →
      ∀ (bp : Rat) (f1 f2 f3 : Bool),
        apply_discounts "Hotel Meetup" optn bp
          "Early Bird Rate - Ends August 1" f1 f2 f3 none = (bp, none)) ∧
    (∀ (optn : String), Sub "Hotel Meetup 2026" optn →
      ∀ (bp : Rat) (tier : String) (f1 f2 f3 : Bool) (bd : PDate),
        apply_discounts "Hotel Meetup" optn bp tier f1 f2 f3 (some bd) =
          apply_discounts "Hotel Meetup" optn bp tier false false false
            (some bd) ∧
        (¬ Sub "Early Bird Rate - Ends August 1" tier →
          apply_discounts "Hotel Meetup" optn bp tier f1 f2 f3 (some bd) =
            (bp, none))) := by
  have hname : pyStripS "Hotel Meetup" = "Hotel Meetup" := by decide
  refine ⟨fun optn hop bp f1 f2 f3 => ?_, fun optn hop bp tier f1 f2 f3 bd => ?_⟩
  · cases f3 with
    | false =>
      simp [apply_discounts, apply_discounts_rest, advertiser_overrides, hname]
    | true =>
      simp [apply_discounts, apply_discounts_rest, advertiser_overrides, hname]
  · have hsub : Sub "Hotel Meetup 2026" (pyStripS optn) :=
      sub_pyStripS (by decide) hop
    refine ⟨?_, fun ht => ?_⟩
    · simp [apply_discounts, hname, hsub]
    · simp [apply_discounts, hname, hsub, ht]

/-- Witness for C10: no billing date, early-bird tier, base price 999
passes through with no label. -/
theorem billing_date_gates_hotel_branch_witness :
    apply_discounts "Hotel Meetup" "Hotel Meetup 2026 - Std" 999
      "Early Bird Rate - Ends August 1" true true true none = (999, none) :=
  billing_date_gates_hotel_branch.1 "Hotel Meetup 2026 - Std" (by decide)
    999 true true true

/-! ## Claim C9 (pool orchestrator) -/

/-- C9: the orchestrator computes each pool's sub-budget as
`total_budget × pct/100` unrounded, runs the allocator once per pool, and
returns `grand_total = round(tourist.subtotal + industry.subtotal, 2)`; and
for total_budget=45000, tourist_pct=60, industry_pct=40 the sub-budgets are
exactly 27000.00 and 18000.00 (also through Ver3.0's rounding
`compute_pools`). -/
theorem orchestrator_sub_budgets :
    (∀ (total tp ip : Rat) (tset iset : List (String × ProductRecord))
        (meta : List (String × Meta)) (d : Option PDate) (adv : Bool),
      run_fill_to_cap total tp ip tset iset meta d adv =
        (greedy_fill_to_cap (total * (tp / 100)) tset meta d adv).bind
          (fun tsel =>
            (greedy_fill_to_cap (total * (ip / 100)) iset meta d adv).bind
              (fun isel =>
                .ok (tsel, isel, round2 (tsel.subtotal + isel.subtotal))))) ∧
    ((45000 : Rat) * (60 / 100) = 27000 ∧ (45000 : Rat) * (40 / 100) = 18000) ∧
    compute_pools 45000 60 40 =
      (⟨"tourist", 27000, 0, []⟩, ⟨"industry", 18000, 0, []⟩) := by
  refine ⟨fun total tp ip tset iset meta d adv => ?_, by decide!, by decide!⟩
  simp only [run_fill_to_cap]
  cases h1 : greedy_fill_to_cap (total * (tp / 100)) tset meta d adv with
  | error e => simp [Except.bind]
  | ok tsel =>
    cases h2 : greedy_fill_to_cap (total * (ip / 100)) iset meta d adv with
    | error e => simp [Except.bind]
    | ok isel => simp [Except.bind]

/-! ## Association-list lemmas for the allocator -/

theorem setk_keys {α : Type} (m : List (String × α)) (k : String) (v : α) :
    (setk m k v).map Prod.fst = m.map Prod.fst := by
  induction m with
  | nil => rfl
  | cons kv rest ih =>
    simp only [setk, List.map_cons] at ih ⊢
    by_cases h : kv.1 = k
    · rw [if_pos h, ih]
      simp [h]
    · rw [if_neg h, ih]

theorem setk_not_mem {α : Type} {m : List (String × α)} {k : String} (v : α)
    (h : k ∉ m.map Prod.fst) : setk m k v = m := by
  induction m with
  | nil => rfl
  | cons kv rest ih =>
    simp only [List.map_cons, List.mem_cons] at h
    push_neg at h
    simp only [setk, List.map_cons]
    rw [if_neg (fun hh => h.1 hh.symm)]
    have := ih h.2
    simp only [setk] at this
    rw [this]

theorem setk_cons {α : Type} (kv : String × α) (rest : List (String × α))
    (k : String) (v : α) :
    setk (kv :: rest) k v = (if kv.1 = k then (k, v) else kv) :: setk rest k v := rfl

theorem lookup_setk_ne {α : Type} {m : List (String × α)} {k k' : String}
    (v : α) (h : k' ≠ k) : lookupStr (setk m k v) k' = lookupStr m k' := by
  induction m with
  | nil => rfl
  | cons kv rest ih =>
    rw [setk_cons]
    by_cases hk : kv.1 = k
    · rw [if_pos hk]
      show lookupStr ((k, v) :: setk rest k v) k' = lookupStr (kv :: rest) k'
      simp only [lookupStr]
      rw [if_neg (fun hh : k = k' => h hh.symm),
        if_neg (fun hh : kv.1 = k' => h (hk ▸ hh).symm)]
      exact ih
    · rw [if_neg hk]
      simp only [lookupStr]
      by_cases hk' : kv.1 = k'
      · rw [if_pos hk', if_pos hk']
      · rw [if_neg hk', if_neg hk']
        exact ih

theorem lookup_of_nodup_mem {α : Type} {m : List (String × α)} {k : String}
    {v : α} (hn : (m.map Prod.fst).Nodup) (hm : (k, v) ∈ m) :
    lookupStr m k = some v := by
  induction m with
  | nil => cases hm
  | cons kv rest ih =>
    simp only [List.map_cons, List.nodup_cons] at hn
    rcases List.mem_cons.mp hm with h | h
    · rw [← h]
      simp [lookupStr]
    · have hne : kv.1 ≠ k := by
        intro he
        exact hn.1 (he ▸ (List.mem_map.mpr ⟨(k, v), h, rfl⟩))
      simp only [lookupStr]
      rw [if_neg hne]
      exact ih hn.2 h

theorem lookup_mem {α : Type} {m : List (String × α)} {k : String} {v : α}
    (h : lookupStr m k = some v) : (k, v) ∈ m := by
  induction m with
  | nil => cases h
  | cons kv rest ih =>
    simp only [lookupStr] at h
    by_cases hk : kv.1 = k
    · rw [if_pos hk] at h
      exact List.mem_cons.mpr (Or.inl (by cases kv; cases h; simp_all))
    · rw [if_neg hk] at h
      exact List.mem_cons.mpr (Or.inr (ih h))

theorem findEntry_mem {enums : List EnumEntry} {k : String} {e : EnumEntry}
    (h : findEntry enums k = some e) : e ∈ enums := by
  induction enums with
  | nil => cases h
  | cons e0 rest ih =>
    simp only [findEntry] at h
    by_cases hk : e0.pname = k
    · rw [if_pos hk] at h
      cases h
      exact List.mem_cons_self _ _
    · rw [if_neg hk] at h
      exact List.mem_cons.mpr (Or.inr (ih h))

theorem findEntry_of_nodup {enums : List EnumEntry} {e : EnumEntry}
    (hn : (enums.map EnumEntry.pname).Nodup) (hm : e ∈ enums) :
    findEntry enums e.pname = some e := by
  induction enums with
  | nil => cases hm
  | cons e0 rest ih =>
    simp only [List.map_cons, List.nodup_cons] at hn
    rcases List.mem_cons.mp hm with h | h
    · rw [h]
      simp [findEntry]
    · have hne : e0.pname ≠ e.pname := by
        intro he
        exact hn.1 (he ▸ (List.mem_map.mpr ⟨e, h, rfl⟩))
      simp only [findEntry]
      rw [if_neg hne]
      exact ih hn.2 h

theorem filter_length_mono {α : Type} (l : List α) (p q : α → Bool)
    (himp : ∀ x ∈ l, p x = true → q x = true) :
    (l.filter p).length ≤ (l.filter q).length := by
  induction l with
  | nil => exact Nat.le_refl _
  | cons a l ih =>
    have ih' := ih (fun x hx => himp x (List.mem_cons_of_mem a hx))
    by_cases hp : p a = true
    · rw [List.filter_cons_of_pos hp,
        List.filter_cons_of_pos (himp a (List.mem_cons_self a l) hp)]
      simpa using ih'
    · rw [List.filter_cons_of_neg (by simpa using hp)]
      by_cases hq : q a = true
      · rw [List.filter_cons_of_pos hq]
        exact Nat.le_succ_of_le ih'
      · rw [List.filter_cons_of_neg (by simpa using hq)]
        exact ih'

theorem filter_length_strict {α : Type} (l : List α) (p q : α → Bool)
    (himp : ∀ x ∈ l, p x = true → q x = true) (x₀ : α) (hx : x₀ ∈ l)
    (hq : q x₀ = true) (hp : p x₀ = false) :
    (l.filter p).length < (l.filter q).length := by
  induction l with
  | nil => cases hx
  | cons a l ih =>
    have himp' := fun x hx => himp x (List.mem_cons_of_mem a hx)
    rcases List.mem_cons.mp hx with h | h
    · subst h
      rw [List.filter_cons_of_neg (by simp [hp]), List.filter_cons_of_pos hq]
      exact Nat.lt_succ_of_le (filter_length_mono l p q himp')
    · have ih' := ih himp' h
      by_cases hpa : p a = true
      · rw [List.filter_cons_of_pos hpa,
          List.filter_cons_of_pos (himp a (List.mem_cons_self a l) hpa)]
        simpa using ih'
      · rw [List.filter_cons_of_neg (by simpa using hpa)]
        by_cases hqa : q a = true
        · rw [List.filter_cons_of_pos hqa]
          exact Nat.lt_succ_of_lt ih'
        · rw [List.filter_cons_of_neg (by simpa using hqa)]
          exact ih'

/-! ## Termination measure for the upgrade loop -/

/-- Number of strictly-pricier candidates of one picked entry. -/
def stepWeight (enums : List EnumEntry) (kv : String × Pick) : Nat :=
  ((entryFor enums kv.1).cands.filter
    (fun c => decide (lineOf (entryFor enums kv.1).prod kv.2
      < lineOf (entryFor enums kv.1).prod c))).length

/-- Termination measure: total number of strict upgrades still available. -/
def muM (enums : List EnumEntry) (picks : List (String × Pick)) : Nat :=
  (picks.map (stepWeight enums)).sum

theorem muM_cons (enums : List EnumEntry) (kv : String × Pick)
    (rest : List (String × Pick)) :
    muM enums (kv :: rest) = stepWeight enums kv + muM enums rest := by
  simp [muM]

theorem mu_setk {enums : List EnumEntry} :
    ∀ {m : List (String × Pick)} {k : String} {v c : Pick},
    (m.map Prod.fst).Nodup → (k, v) ∈ m →
    muM enums (setk m k c) + stepWeight enums (k, v) =
      muM enums m + stepWeight enums (k, c) := by
  intro m
  induction m with
  | nil => intro k v c _ hm; cases hm
  | cons kv rest ih =>
    intro k v c hn hm
    simp only [List.map_cons, List.nodup_cons] at hn
    rw [setk_cons]
    rcases List.mem_cons.mp hm with h | h
    · have hk : kv.1 = k := by rw [← h]
      rw [if_pos hk]
      have hnotin : k ∉ rest.map Prod.fst := hk ▸ hn.1
      rw [setk_not_mem c hnotin, muM_cons, muM_cons, ← h]
      omega
    · have hk : kv.1 ≠ k := by
        intro he
        exact hn.1 (he ▸ List.mem_map.mpr ⟨(k, v), h, rfl⟩)
      rw [if_neg hk, muM_cons, muM_cons]
      have := @ih k v c hn.2 h
      omega

theorem stepWeight_le (enums : List EnumEntry) (kv : String × Pick) :
    stepWeight enums kv ≤ (enums.map (fun e => e.cands.length)).sum := by
  unfold stepWeight entryFor
  cases hf : findEntry enums kv.1 with
  | none => simp
  | some e =>
    have hm : e ∈ enums := findEntry_mem hf
    calc ((Option.getD (some e) _).cands.filter _).length
        ≤ (Option.getD (some e) ⟨kv.1, ⟨"", [], []⟩, []⟩).cands.length :=
          List.length_filter_le _ _
      _ = e.cands.length := by rfl
      _ ≤ (enums.map (fun e => e.cands.length)).sum :=
          List.single_le_sum (fun _ _ => Nat.zero_le _) _
            (List.mem_map.mpr ⟨e, hm, rfl⟩)

theorem muM_le (enums : List EnumEntry) (picks : List (String × Pick)) :
    muM enums picks ≤
      picks.length * (enums.map (fun e => e.cands.length)).sum := by
  induction picks with
  | nil => simp [muM]
  | cons kv rest ih =>
    rw [muM_cons]
    have h1 := stepWeight_le enums kv
    simp only [List.length_cons]
    calc stepWeight enums kv + muM enums rest
        ≤ (enums.map (fun e => e.cands.length)).sum
          + rest.length * (enums.map (fun e => e.cands.length)).sum :=
          Nat.add_le_add h1 ih
      _ = (rest.length + 1) * (enums.map (fun e => e.cands.length)).sum := by
          ring

/-! ## Single-step lemmas for the upgrade pass -/

theorem step_none {budget : Rat} {enums : List EnumEntry}
    {picks : List (String × Pick)} {sub : Rat} {imp : Bool}
    {entry : String × Pick}
    (h : (stepUpgrades enums entry).find? (stepPred budget enums sub entry) = none) :
    oneProductStep budget enums (picks, sub, imp) entry = (picks, sub, imp) := by
  simp only [oneProductStep]
  rw [h]

theorem step_some {budget : Rat} {enums : List EnumEntry}
    {picks : List (String × Pick)} {sub : Rat} {imp : Bool}
    {entry : String × Pick} {c : Pick}
    (h : (stepUpgrades enums entry).find? (stepPred budget enums sub entry) = some c) :
    oneProductStep budget enums (picks, sub, imp) entry =
      (setk picks entry.1 c,
       sub - lineOf (entryFor enums entry.1).prod entry.2
         + lineOf (entryFor enums entry.1).prod c,
       true) := by
  simp only [oneProductStep]
  rw [h]

theorem mem_stepUpgrades {enums : List EnumEntry} {entry : String × Pick}
    {c : Pick} (h : c ∈ stepUpgrades enums entry) :
    c ∈ (entryFor enums entry.1).cands ∧
    lineOf (entryFor enums entry.1).prod entry.2
      < lineOf (entryFor enums entry.1).prod c := by
  simp only [stepUpgrades] at h
  have h2 := (List.perm_insertionSort _ _).mem_iff.mp h
  rw [List.mem_filter] at h2
  exact ⟨h2.1, by simpa using h2.2⟩

theorem step_sub_le (budget : Rat) (enums : List EnumEntry)
    (acc : List (String × Pick) × Rat × Bool) (entry : String × Pick) :
    acc.2.1 ≤ (oneProductStep budget enums acc entry).2.1 := by
  obtain ⟨picks, sub, imp⟩ := acc
  cases hf : (stepUpgrades enums entry).find? (stepPred budget enums sub entry) with
  | none => rw [step_none hf]
  | some c =>
    rw [step_some hf]
    have hlt := (mem_stepUpgrades (List.mem_of_find?_eq_some hf)).2
    dsimp only
    linarith

theorem step_budget (budget : Rat) (enums : List EnumEntry)
    (acc : List (String × Pick) × Rat × Bool) (entry : String × Pick)
    (hb : acc.2.1 ≤ budget) :
    (oneProductStep budget enums acc entry).2.1 ≤ budget := by
  obtain ⟨picks, sub, imp⟩ := acc
  cases hf : (stepUpgrades enums entry).find? (stepPred budget enums sub entry) with
  | none => rw [step_none hf]; exact hb
  | some c =>
    rw [step_some hf]
    have hp := List.find?_some hf
    simp only [stepPred, decide_eq_true_eq] at hp
    exact hp

theorem step_keys (budget : Rat) (enums : List EnumEntry)
    (acc : List (String × Pick) × Rat × Bool) (entry : String × Pick) :
    (oneProductStep budget enums acc entry).1.map Prod.fst =
      acc.1.map Prod.fst := by
  obtain ⟨picks, sub, imp⟩ := acc
  cases hf : (stepUpgrades enums entry).find? (stepPred budget enums sub entry) with
  | none => rw [step_none hf]
  | some c => rw [step_some hf]; exact setk_keys picks entry.1 c

theorem step_id_or_lt (budget : Rat) (enums : List EnumEntry)
    (acc : List (String × Pick) × Rat × Bool) (entry : String × Pick) :
    oneProductStep budget enums acc entry = acc ∨
      acc.2.1 < (oneProductStep budget enums acc entry).2.1 := by
  obtain ⟨picks, sub, imp⟩ := acc
  cases hf : (stepUpgrades enums entry).find? (stepPred budget enums sub entry) with
  | none => exact Or.inl (step_none hf)
  | some c =>
    refine Or.inr ?_
    rw [step_some hf]
    have hlt := (mem_stepUpgrades (List.mem_of_find?_eq_some hf)).2
    dsimp only
    linarith

theorem step_flag_true (budget : Rat) (enums : List EnumEntry)
    (acc : List (String × Pick) × Rat × Bool) (entry : String × Pick)
    (h : acc.2.2 = true) : (oneProductStep budget enums acc entry).2.2 = true := by
  obtain ⟨picks, sub, imp⟩ := acc
  cases hf : (stepUpgrades enums entry).find? (stepPred budget enums sub entry) with
  | none => rw [step_none hf]; exact h
  | some c => rw [step_some hf]

theorem step_flag_false (budget : Rat) (enums : List EnumEntry)
    (acc : List (String × Pick) × Rat × Bool) (entry : String × Pick)
    (h : (oneProductStep budget enums acc entry).2.2 = false) :
    oneProductStep budget enums acc entry = acc := by
  obtain ⟨picks, sub, imp⟩ := acc
  cases hf : (stepUpgrades enums entry).find? (stepPred budget enums sub entry) with
  | none => exact step_none hf
  | some c => rw [step_some hf] at h; cases h

theorem step_mu_strict {budget : Rat} {enums : List EnumEntry}
    {picks : List (String × Pick)} {sub : Rat} {entry : String × Pick}
    {c : Pick} (hn : (picks.map Prod.fst).Nodup)
    (hmem : (entry.1, entry.2) ∈ picks)
    (hf : (stepUpgrades enums entry).find? (stepPred budget enums sub entry) = some c) :
    muM enums (setk picks entry.1 c) < muM enums picks := by
  have hc := mem_stepUpgrades (List.mem_of_find?_eq_some hf)
  have hkey := @mu_setk enums picks entry.1 entry.2 c hn hmem
  have hw : stepWeight enums (entry.1, c) < stepWeight enums (entry.1, entry.2) := by
    unfold stepWeight
    refine filter_length_strict _ _ _ ?_ c hc.1 ?_ ?_
    · intro x hx hpx
      simp only [decide_eq_true_eq] at hpx ⊢
      exact lt_trans hc.2 hpx
    · simp only [decide_eq_true_eq]
      exact hc.2
    · simp only [decide_eq_false_iff_not]
      exact lt_irrefl _
  omega

/-! ## Pass-level lemmas (fold over the snapshot) -/

theorem fold_sub_le (budget : Rat) (enums : List EnumEntry) :
    ∀ (todo : List (String × Pick)) (acc : List (String × Pick) × Rat × Bool),
    acc.2.1 ≤ (todo.foldl (oneProductStep budget enums) acc).2.1 := by
  intro todo
  induction todo with
  | nil => intro acc; exact le_refl _
  | cons t ts ih =>
    intro acc
    rw [List.foldl_cons]
    exact le_trans (step_sub_le budget enums acc t) (ih _)

theorem fold_budget (budget : Rat) (enums : List EnumEntry) :
    ∀ (todo : List (String × Pick)) (acc : List (String × Pick) × Rat × Bool),
    acc.2.1 ≤ budget →
    (todo.foldl (oneProductStep budget enums) acc).2.1 ≤ budget := by
  intro todo
  induction todo with
  | nil => intro acc h; exact h
  | cons t ts ih =>
    intro acc h
    rw [List.foldl_cons]
    exact ih _ (step_budget budget enums acc t h)

theorem fold_keys (budget : Rat) (enums : List EnumEntry) :
    ∀ (todo : List (String × Pick)) (acc : List (String × Pick) × Rat × Bool),
    (todo.foldl (oneProductStep budget enums) acc).1.map Prod.fst =
      acc.1.map Prod.fst := by
  intro todo
  induction todo with
  | nil => intro acc; rfl
  | cons t ts ih =>
    intro acc
    rw [List.foldl_cons, ih _, step_keys]

theorem fold_flag_true (budget : Rat) (enums : List EnumEntry) :
    ∀ (todo : List (String × Pick)) (acc : List (String × Pick) × Rat × Bool),
    acc.2.2 = true →
    (todo.foldl (oneProductStep budget enums) acc).2.2 = true := by
  intro todo
  induction todo with
  | nil => intro acc h; exact h
  | cons t ts ih =>
    intro acc h
    rw [List.foldl_cons]
    exact ih _ (step_flag_true budget enums acc t h)

theorem fold_flag_false (budget : Rat) (enums : List EnumEntry) :
    ∀ (todo : List (String × Pick)) (acc : List (String × Pick) × Rat × Bool),
    (todo.foldl (oneProductStep budget enums) acc).2.2 = false →
    todo.foldl (oneProductStep budget enums) acc = acc := by
  intro todo
  induction todo with
  | nil => intro acc _; rfl
  | cons t ts ih =>
    intro acc h
    rw [List.foldl_cons] at h ⊢
    cases hst : (oneProductStep budget enums acc t).2.2 with
    | true =>
      rw [fold_flag_true budget enums ts _ hst] at h
      cases h
    | false =>
      rw [step_flag_false budget enums acc t hst] at h ⊢
      exact ih _ h

theorem fold_mu (budget : Rat) (enums : List EnumEntry) :
    ∀ (todo : List (String × Pick)) (picks : List (String × Pick))
      (sub : Rat) (imp : Bool),
    (picks.map Prod.fst).Nodup →
    (∀ kv ∈ todo, lookupStr picks kv.1 = some kv.2) →
    (todo.map Prod.fst).Nodup →
    muM enums (todo.foldl (oneProductStep budget enums) (picks, sub, imp)).1
      ≤ muM enums picks ∧
    (imp = false →
      (todo.foldl (oneProductStep budget enums) (picks, sub, imp)).2.2 = true →
      muM enums (todo.foldl (oneProductStep budget enums) (picks, sub, imp)).1
        < muM enums picks) := by
  intro todo
  induction todo with
  | nil =>
    intro picks sub imp hn _ _
    refine ⟨le_refl _, fun h1 h2 => ?_⟩
    rw [List.foldl_nil] at h2
    rw [h1] at h2
    cases h2
  | cons t ts ih =>
    intro picks sub imp hn hlk htd
    simp only [List.map_cons, List.nodup_cons] at htd
    have hmem : (t.1, t.2) ∈ picks := lookup_mem (hlk t (List.mem_cons_self t ts))
    rw [List.foldl_cons]
    cases hf : (stepUpgrades enums t).find? (stepPred budget enums sub t) with
    | none =>
      rw [step_none hf]
      exact ih picks sub imp hn
        (fun kv hkv => hlk kv (List.mem_cons_of_mem t hkv)) htd.2
    | some c =>
      rw [step_some hf]
      have hnn : ((setk picks t.1 c).map Prod.fst).Nodup := by
        rw [setk_keys]; exact hn
      have hlk' : ∀ kv ∈ ts, lookupStr (setk picks t.1 c) kv.1 = some kv.2 := by
        intro kv hkv
        have hne : kv.1 ≠ t.1 := by
          intro he
          exact htd.1 (he ▸ List.mem_map.mpr ⟨kv, hkv, rfl⟩)
        rw [lookup_setk_ne c hne]
        exact hlk kv (List.mem_cons_of_mem t hkv)
      have hstrict : muM enums (setk picks t.1 c) < muM enums picks :=
        step_mu_strict hn hmem hf
      have hrec := ih (setk picks t.1 c)
        (sub - lineOf (entryFor enums t.1).prod t.2
          + lineOf (entryFor enums t.1).prod c) true hnn hlk' htd.2
      exact ⟨le_trans hrec.1 (le_of_lt hstrict),
        fun _ _ => lt_of_le_of_lt hrec.1 hstrict⟩

theorem pass_sub_le (budget : Rat) (enums : List EnumEntry)
    (picks : List (String × Pick)) (sub : Rat) :
    sub ≤ (upgradePass budget enums picks sub).2.1 :=
  fold_sub_le budget enums picks (picks, sub, false)

theorem pass_budget (budget : Rat) (enums : List EnumEntry)
    (picks : List (String × Pick)) (sub : Rat) (h : sub ≤ budget) :
    (upgradePass budget enums picks sub).2.1 ≤ budget :=
  fold_budget budget enums picks (picks, sub, false) h

theorem pass_keys (budget : Rat) (enums : List EnumEntry)
    (picks : List (String × Pick)) (sub : Rat) :
    (upgradePass budget enums picks sub).1.map Prod.fst = picks.map Prod.fst :=
  fold_keys budget enums picks (picks, sub, false)

theorem pass_fix (budget : Rat) (enums : List EnumEntry)
    (picks : List (String × Pick)) (sub : Rat)
    (h : (upgradePass budget enums picks sub).2.2 = false) :
    upgradePass budget enums picks sub = (picks, sub, false) :=
  fold_flag_false budget enums picks (picks, sub, false) h

theorem pass_mu (budget : Rat) (enums : List EnumEntry)
    (picks : List (String × Pick)) (sub : Rat)
    (hn : (picks.map Prod.fst).Nodup) :
    muM enums (upgradePass budget enums picks sub).1 ≤ muM enums picks ∧
    ((upgradePass budget enums picks sub).2.2 = true →
      muM enums (upgradePass budget enums picks sub).1 < muM enums picks) := by
  have h := fold_mu budget enums picks picks sub false hn
    (fun kv hkv => lookup_of_nodup_mem hn hkv) hn
  exact ⟨h.1, h.2 rfl⟩

/-! ## Loop-level lemmas -/

theorem loop_sub_le (budget : Rat) (enums : List EnumEntry) :
    ∀ (fuel : Nat) (picks : List (String × Pick)) (sub : Rat),
    sub ≤ (upgradeLoop budget enums fuel picks sub).2 := by
  intro fuel
  induction fuel with
  | zero => intro picks sub; exact le_refl _
  | succ fuel ih =>
    intro picks sub
    simp only [upgradeLoop]
    cases hflag : (upgradePass budget enums picks sub).2.2 with
    | true =>
      simp only [if_true]
      exact le_trans (pass_sub_le budget enums picks sub) (ih _ _)
    | false =>
      simp only [Bool.false_eq_true, if_false]
      exact pass_sub_le budget enums picks sub

theorem loop_budget (budget : Rat) (enums : List EnumEntry) :
    ∀ (fuel : Nat) (picks : List (String × Pick)) (sub : Rat),
    sub ≤ budget → (upgradeLoop budget enums fuel picks sub).2 ≤ budget := by
  intro fuel
  induction fuel with
  | zero => intro picks sub h; exact h
  | succ fuel ih =>
    intro picks sub h
    simp only [upgradeLoop]
    cases hflag : (upgradePass budget enums picks sub).2.2 with
    | true =>
      simp only [if_true]
      exact ih _ _ (pass_budget budget enums picks sub h)
    | false =>
      simp only [Bool.false_eq_true, if_false]
      exact pass_budget budget enums picks sub h

theorem loop_keys (budget : Rat) (enums : List EnumEntry) :
    ∀ (fuel : Nat) (picks : List (String × Pick)) (sub : Rat),
    (upgradeLoop budget enums fuel picks sub).1.map Prod.fst =
      picks.map Prod.fst := by
  intro fuel
  induction fuel with
  | zero => intro picks sub; rfl
  | succ fuel ih =>
    intro picks sub
    simp only [upgradeLoop]
    cases hflag : (upgradePass budget enums picks sub).2.2 with
    | true =>
      simp only [if_true]
      rw [ih _ _, pass_keys]
    | false =>
      simp only [Bool.false_eq_true, if_false]
      exact pass_keys budget enums picks sub

theorem loop_term (budget : Rat) (enums : List EnumEntry) :
    ∀ (fuel : Nat) (picks : List (String × Pick)) (sub : Rat),
    (picks.map Prod.fst).Nodup → muM enums picks < fuel →
    (upgradePass budget enums (upgradeLoop budget enums fuel picks sub).1
        (upgradeLoop budget enums fuel picks sub).2 =
      ((upgradeLoop budget enums fuel picks sub).1,
       (upgradeLoop budget enums fuel picks sub).2, false)) ∧
    ∀ m, fuel ≤ m →
      upgradeLoop budget enums m picks sub =
        upgradeLoop budget enums fuel picks sub := by
  intro fuel
  induction fuel with
  | zero => intro picks sub _ hmu; exact absurd hmu (Nat.not_lt_zero _)
  | succ fuel ih =>
    intro picks sub hn hmu
    cases hflag : (upgradePass budget enums picks sub).2.2 with
    | false =>
      have hfix := pass_fix budget enums picks sub hflag
      have hloop : upgradeLoop budget enums (fuel + 1) picks sub = (picks, sub) := by
        simp only [upgradeLoop, hfix, Bool.false_eq_true, if_false]
      constructor
      · rw [hloop]
        exact hfix
      · intro m hm
        cases m with
        | zero => omega
        | succ m' =>
          rw [hloop]
          simp only [upgradeLoop, hfix, Bool.false_eq_true, if_false]
    | true =>
      have hmu2 := (pass_mu budget enums picks sub hn).2 hflag
      have hn' : ((upgradePass budget enums picks sub).1.map Prod.fst).Nodup := by
        rw [pass_keys]; exact hn
      have hmu' : muM enums (upgradePass budget enums picks sub).1 < fuel := by
        omega
      have ih' := ih (upgradePass budget enums picks sub).1
        (upgradePass budget enums picks sub).2.1 hn' hmu'
      have hloop : upgradeLoop budget enums (fuel + 1) picks sub =
          upgradeLoop budget enums fuel (upgradePass budget enums picks sub).1
            (upgradePass budget enums picks sub).2.1 := by
        simp only [upgradeLoop, hflag, if_true]
      constructor
      · rw [hloop]
        exact ih'.1
      · intro m hm
        cases m with
        | zero => omega
        | succ m' =>
          have e1 : upgradeLoop budget enums (m' + 1) picks sub =
              upgradeLoop budget enums m'
                (upgradePass budget enums picks sub).1
                (upgradePass budget enums picks sub).2.1 := by
            simp only [upgradeLoop, hflag, if_true]
          rw [e1, ih'.2 m' (by omega), hloop]

/-! ## Baseline-phase lemmas -/

theorem bestCand_aux (product : ProductRecord) :
    ∀ (l : List Pick) (b : Pick),
    ∃ b', l.foldl
      (fun best c =>
        match best with
        | none => some c
        | some b => if lineOf product c < lineOf product b then some c else some b)
      (some b) = some b' := by
  intro l
  induction l with
  | nil => intro b; exact ⟨b, rfl⟩
  | cons c cs ih =>
    intro b
    rw [List.foldl_cons]
    by_cases h : lineOf product c < lineOf product b
    · simpa [h] using ih c
    · simpa [h] using ih b

theorem bestCand_eq_none_iff (product : ProductRecord) (cands : List Pick) :
    bestCand product cands = none ↔ cands = [] := by
  constructor
  · intro h
    cases cands with
    | nil => rfl
    | cons c cs =>
      exfalso
      obtain ⟨b', hb⟩ := bestCand_aux product cs c
      unfold bestCand at h
      rw [List.foldl_cons] at h
      simp only [] at h
      rw [hb] at h
      cases h
  · intro h; rw [h]; rfl

theorem baseline_keys (enums : List EnumEntry) :
    (baselineFrom enums).1.map Prod.fst =
      (enums.filter (fun e => !e.cands.isEmpty)).map EnumEntry.pname := by
  induction enums with
  | nil => rfl
  | cons e rest ih =>
    simp only [baselineFrom]
    cases hb : bestCand e.prod e.cands with
    | some c =>
      have hne : e.cands ≠ [] := by
        intro hc
        rw [(bestCand_eq_none_iff e.prod e.cands).mpr hc] at hb
        cases hb
      rw [List.filter_cons_of_pos (by simpa using hne)]
      simp only [List.map_cons, ih]
    | none =>
      have hc := (bestCand_eq_none_iff e.prod e.cands).mp hb
      rw [List.filter_cons_of_neg (by simpa using hc)]
      exact ih

theorem baseline_length_le (enums : List EnumEntry) :
    (baselineFrom enums).1.length ≤ enums.length := by
  induction enums with
  | nil => exact Nat.le_refl _
  | cons e rest ih =>
    simp only [baselineFrom]
    cases hb : bestCand e.prod e.cands with
    | some c => simpa using ih
    | none => exact Nat.le_succ_of_le ih

theorem mu_baseline_lt_totalFuel (enums : List EnumEntry) :
    muM enums (baselineFrom enums).1 < totalFuel enums := by
  have h1 := muM_le enums (baselineFrom enums).1
  have h2 := baseline_length_le enums
  have h3 : (baselineFrom enums).1.length *
      (enums.map (fun e => e.cands.length)).sum ≤
      enums.length * (enums.map (fun e => e.cands.length)).sum :=
    Nat.mul_le_mul_right _ h2
  unfold totalFuel
  omega

/-! ## Enumeration lemmas -/

theorem mapME_ok {α β : Type} {f : α → Except Unit β} :
    ∀ {l : List α} {l' : List β}, mapME f l = .ok l' →
    List.Forall₂ (fun a b => f a = .ok b) l l' := by
  intro l
  induction l with
  | nil =>
    intro l' h
    simp only [mapME] at h
    cases h
    exact List.Forall₂.nil
  | cons a as ih =>
    intro l' h
    simp only [mapME] at h
    cases hfa : f a with
    | error e => rw [hfa] at h; cases h
    | ok b =>
      rw [hfa] at h
      cases hr : mapME f as with
      | error e => rw [hr] at h; cases h
      | ok bs =>
        rw [hr] at h
        cases h
        exact List.Forall₂.cons hfa (ih hr)

theorem concatAll_eq_nil {α : Type} :
    ∀ {ls : List (List α)}, concatAll ls = [] ↔ ∀ l ∈ ls, l = [] := by
  intro ls
  induction ls with
  | nil => simp [concatAll]
  | cons l ls ih =>
    simp only [concatAll, List.append_eq_nil, List.mem_cons]
    constructor
    · rintro ⟨h1, h2⟩ x (rfl | hx)
      · exact h1
      · exact ih.mp h2 x hx
    · intro h
      exact ⟨h l (Or.inl rfl), ih.mpr (fun x hx => h x (Or.inr hx))⟩

theorem enumOption_length {pname : String} {opt : OptDict} {m : Meta}
    {d : Option PDate} {adv : Bool} {l : List Pick}
    (h : enumOption pname opt m d adv = .ok l) :
    l.length = (price_points opt).length :=
  (mapME_ok h).length_eq.symm

theorem forall2_empty_iff {pname : String} {m : Meta} {d : Option PDate}
    {adv : Bool} {opts : List OptDict} {ls : List (List Pick)}
    (hF : List.Forall₂ (fun opt l => enumOption pname opt m d adv = .ok l)
      opts ls) :
    ((∀ l ∈ ls, l = []) ↔ ∀ opt ∈ opts, price_points opt = []) := by
  induction hF with
  | nil => simp
  | cons hab htail ih =>
    rename_i opt l opts2 ls2
    simp only [List.mem_cons]
    constructor
    · rintro h x (rfl | hx)
      · rw [← List.length_eq_zero, ← enumOption_length hab,
          List.length_eq_zero]
        exact h l (Or.inl rfl)
      · exact ih.mp (fun y hy => h y (Or.inr hy)) x hx
    · rintro h x (rfl | hx)
      · rw [← List.length_eq_zero, enumOption_length hab,
          List.length_eq_zero]
        exact h opt (Or.inl rfl)
      · exact ih.mpr (fun y hy => h y (Or.inr hy)) x hx

theorem enumProduct_empty_iff {pname : String} {prod : ProductRecord}
    {m : Meta} {d : Option PDate} {adv : Bool} {cs : List Pick}
    (h : enumProductCands pname prod m d adv = .ok cs) :
    (cs = [] ↔ ∀ opt ∈ prod.price_options.filter
      (fun opt => !summitSkip pname (optNameOf pname opt) adv),
      price_points opt = []) := by
  simp only [enumProductCands] at h
  cases hM : mapME (fun opt => enumOption pname opt m d adv)
      (prod.price_options.filter
        (fun opt => !summitSkip pname (optNameOf pname opt) adv)) with
  | error e => rw [hM] at h; cases h
  | ok ls =>
    rw [hM] at h
    cases h
    rw [concatAll_eq_nil]
    exact forall2_empty_iff (mapME_ok hM)

theorem computeEnums_ok {products : List (String × ProductRecord)}
    {meta : List (String × Meta)} {d : Option PDate} {adv : Bool}
    {enums : List EnumEntry}
    (h : computeEnums products meta d adv = .ok enums) :
    enums.map (fun e => (e.pname, e.prod)) = products ∧
    ∀ e ∈ enums,
      enumProductCands e.pname e.prod ((lookupStr meta e.pname).getD ⟨[]⟩)
        d adv = .ok e.cands := by
  have h2 := mapME_ok h
  clear h
  induction h2 with
  | nil => exact ⟨rfl, fun e he => absurd he (List.not_mem_nil e)⟩
  | cons hab htail ih =>
    rename_i pe e pes es
    have hE : ∃ cs, enumProductCands pe.1 pe.2
        ((lookupStr meta pe.1).getD ⟨[]⟩) d adv = .ok cs ∧
        e = ⟨pe.1, pe.2, cs⟩ := by
      revert hab
      cases hC : enumProductCands pe.1 pe.2
          ((lookupStr meta pe.1).getD ⟨[]⟩) d adv with
      | error er => intro hab; cases hab
      | ok cs =>
        intro hab
        cases hab
        exact ⟨cs, rfl, rfl⟩
    obtain ⟨cs, hC, rfl⟩ := hE
    refine ⟨?_, ?_⟩
    · simp only [List.map_cons, ih.1]
    · intro x hx
      rcases List.mem_cons.mp hx with rfl | hx
      · exact hC
      · exact ih.2 x hx

theorem computeEnums_pnames {products : List (String × ProductRecord)}
    {meta : List (String × Meta)} {d : Option PDate} {adv : Bool}
    {enums : List EnumEntry}
    (h : computeEnums products meta d adv = .ok enums) :
    enums.map EnumEntry.pname = products.map Prod.fst := by
  have h1 := (computeEnums_ok h).1
  calc enums.map EnumEntry.pname
      = (enums.map (fun e => (e.pname, e.prod))).map Prod.fst := by
        rw [List.map_map]; rfl
    _ = products.map Prod.fst := by rw [h1]

theorem count_filter_map {enums : List EnumEntry} (q : EnumEntry → Bool)
    (hn : (enums.map EnumEntry.pname).Nodup) {e : EnumEntry} (he : e ∈ enums) :
    List.count e.pname ((enums.filter q).map EnumEntry.pname) =
      if q e then 1 else 0 := by
  induction enums with
  | nil => cases he
  | cons e0 rest ih =>
    simp only [List.map_cons, List.nodup_cons] at hn
    rcases List.mem_cons.mp he with rfl | h
    · have hz : List.count e.pname ((rest.filter q).map EnumEntry.pname) = 0 := by
        rw [List.count_eq_zero]
        intro hmem
        apply hn.1
        obtain ⟨x, hx, hxe⟩ := List.mem_map.mp hmem
        exact List.mem_map.mpr ⟨x, (List.mem_filter.mp hx).1, hxe⟩
      cases hq : q e with
      | true =>
        rw [List.filter_cons_of_pos hq, List.map_cons, List.count_cons_self,
          hz]
        simp
      | false =>
        rw [List.filter_cons_of_neg (by simp [hq]), hz]
        simp
    · have hne : e0.pname ≠ e.pname := fun hh =>
        hn.1 (hh ▸ List.mem_map.mpr ⟨e, h, rfl⟩)
      cases hq0 : q e0 with
      | true =>
        rw [List.filter_cons_of_pos hq0, List.map_cons,
          List.count_cons_of_ne (fun hh => hne hh.symm)]
        exact ih hn.2 h
      | false =>
        rw [List.filter_cons_of_neg (by simp [hq0])]
        exact ih hn.2 h

/-! ## Claim C1 (budget respect and subtotal monotonicity) -/

/-- C1: for every catalog, metadata, date and advertiser flag (given through
their candidate enumeration, which is what Phase A computes), the running
subtotal never decreases across any upgrade step, and whenever the Phase A
baseline subtotal is within the sub-budget, the subtotal after any number of
upgrade passes — in particular after the full upgrade loop the allocator
runs — stays within the sub-budget and never drops below the baseline. -/
theorem greedy_budget_respected (budget : Rat)
    (products : List (String × ProductRecord)) (meta : List (String × Meta))
    (d : Option PDate) (adv : Bool) (enums : List EnumEntry)
    (hE : computeEnums products meta d adv = .ok enums) :
    (∀ (st : List (String × Pick) × Rat × Bool) (entry : String × Pick),
      st.2.1 ≤ (oneProductStep budget enums st entry).2.1) ∧
    ((baselineFrom enums).2 ≤ budget →
      ∀ fuel : Nat,
        (upgradeLoop budget enums fuel (baselineFrom enums).1
          (baselineFrom enums).2).2 ≤ budget ∧
        (baselineFrom enums).2 ≤
          (upgradeLoop budget enums fuel (baselineFrom enums).1
            (baselineFrom enums).2).2) ∧
    greedy_fill_to_cap budget products meta d adv =
      .ok ⟨(upgradeLoop budget enums (totalFuel enums) (baselineFrom enums).1
              (baselineFrom enums).2).1,
           round2 (upgradeLoop budget enums (totalFuel enums)
              (baselineFrom enums).1 (baselineFrom enums).2).2⟩ := by
  refine ⟨fun st entry => step_sub_le budget enums st entry,
    fun hb fuel => ⟨loop_budget budget enums fuel _ _ hb,
      loop_sub_le budget enums fuel _ _⟩, ?_⟩
  simp only [greedy_fill_to_cap, hE]

/-- Witness for C1 on a concrete one-product catalog with budget 200:
baseline 100 is within budget and the upgraded subtotal stays within. -/
theorem greedy_budget_respected_witness :
    (upgradeLoop 200 wEnums (totalFuel wEnums) (baselineFrom wEnums).1
      (baselineFrom wEnums).2).2 ≤ 200 :=
  ((greedy_budget_respected 200 wCatalog [] none false wEnums
      (by decide!)).2.1 (by decide!) (totalFuel wEnums)).1

/-! ## Claim C3 (exactly one pick per viable product) -/

/-- C3: whenever the candidate enumeration succeeds, the allocator returns a
Selection (no error), in which every product whose post-filter candidate
list is nonempty owns exactly one Pick and every product with no candidates
is silently omitted; and a product's candidate list is empty exactly when
every option surviving the Summit-Booth eligibility filter has zero price
points. -/
theorem one_pick_per_product (budget : Rat)
    (products : List (String × ProductRecord)) (meta : List (String × Meta))
    (d : Option PDate) (adv : Bool) (enums : List EnumEntry)
    (hN : (products.map Prod.fst).Nodup)
    (hE : computeEnums products meta d adv = .ok enums) :
    ∃ sel, greedy_fill_to_cap budget products meta d adv = .ok sel ∧
      ∀ e ∈ enums,
        (e.cands ≠ [] → List.count e.pname (sel.picks.map Prod.fst) = 1) ∧
        (e.cands = [] → List.count e.pname (sel.picks.map Prod.fst) = 0) ∧
        (e.cands = [] ↔ ∀ opt ∈ e.prod.price_options.filter
          (fun o => !summitSkip e.pname (optNameOf e.pname o) adv),
          price_points opt = []) := by
  refine ⟨⟨(upgradeLoop budget enums (totalFuel enums) (baselineFrom enums).1
      (baselineFrom enums).2).1,
    round2 (upgradeLoop budget enums (totalFuel enums) (baselineFrom enums).1
      (baselineFrom enums).2).2⟩, ?_, ?_⟩
  · simp only [greedy_fill_to_cap, hE]
  · intro e he
    have hpn : (enums.map EnumEntry.pname).Nodup := by
      rw [computeEnums_pnames hE]; exact hN
    have hkeys : (upgradeLoop budget enums (totalFuel enums)
        (baselineFrom enums).1 (baselineFrom enums).2).1.map Prod.fst =
        (enums.filter (fun e => !e.cands.isEmpty)).map EnumEntry.pname := by
      rw [loop_keys, baseline_keys]
    have hcount := count_filter_map (fun e => !e.cands.isEmpty) hpn he
    refine ⟨fun hne => ?_, fun hnil => ?_, ?_⟩
    · simp only [hkeys, hcount]
      rw [if_pos (by simpa using hne)]
    · simp only [hkeys, hcount]
      rw [if_neg (by simp [hnil])]
    · exact enumProduct_empty_iff ((computeEnums_ok hE).2 e he)

/-- Witness for C3 on the concrete one-product catalog: the single product
has candidates and receives exactly one Pick. -/
theorem one_pick_per_product_witness :
    ∃ sel, greedy_fill_to_cap 200 wCatalog [] none false = .ok sel ∧
      List.count "Prod" (sel.picks.map Prod.fst) = 1 := by
  obtain ⟨sel, hsel, hall⟩ := one_pick_per_product 200 wCatalog [] none false
    wEnums (by decide!) (by decide!)
  exact ⟨sel, hsel,
    (hall ⟨"Prod", wProd, [("OptA", "base", 100), ("OptB", "1X", 150),
      ("OptB", "2X", 300)]⟩ (by decide!)).1 (by decide!)⟩

/-! ## Claim C4 (upgrade-loop termination) -/

/-- C4: every upgrade step either changes nothing or strictly increases the
subtotal; the candidate space is finite, and with the allocator's fuel the
loop reaches a pass that adopts no upgrade (the final state is a fixpoint of
the pass), so any larger fuel gives the same result — the `while improved`
loop terminates. -/
theorem upgrade_loop_terminates (budget : Rat)
    (products : List (String × ProductRecord)) (meta : List (String × Meta))
    (d : Option PDate) (adv : Bool) (enums : List EnumEntry)
    (hN : (products.map Prod.fst).Nodup)
    (hE : computeEnums products meta d adv = .ok enums) :
    (∀ (st : List (String × Pick) × Rat × Bool) (entry : String × Pick),
      oneProductStep budget enums st entry = st ∨
        st.2.1 < (oneProductStep budget enums st entry).2.1) ∧
    (upgradePass budget enums
        (upgradeLoop budget enums (totalFuel enums) (baselineFrom enums).1
          (baselineFrom enums).2).1
        (upgradeLoop budget enums (totalFuel enums) (baselineFrom enums).1
          (baselineFrom enums).2).2 =
      ((upgradeLoop budget enums (totalFuel enums) (baselineFrom enums).1
          (baselineFrom enums).2).1,
       (upgradeLoop budget enums (totalFuel enums) (baselineFrom enums).1
          (baselineFrom enums).2).2, false)) ∧
    (∀ m, totalFuel enums ≤ m →
      upgradeLoop budget enums m (baselineFrom enums).1
          (baselineFrom enums).2 =
        upgradeLoop budget enums (totalFuel enums) (baselineFrom enums).1
          (baselineFrom enums).2) := by
  have hpn : (enums.map EnumEntry.pname).Nodup := by
    rw [computeEnums_pnames hE]; exact hN
  have hkeys0 : ((baselineFrom enums).1.map Prod.fst).Nodup := by
    rw [baseline_keys]
    exact hpn.sublist ((List.filter_sublist _).map EnumEntry.pname)
  have hterm := loop_term budget enums (totalFuel enums) (baselineFrom enums).1
    (baselineFrom enums).2 hkeys0 (mu_baseline_lt_totalFuel enums)
  exact ⟨step_id_or_lt budget enums, hterm.1, hterm.2⟩

/-- Witness for C4 on the concrete one-product catalog: one extra unit of
fuel beyond the allocator's bound changes nothing. -/
theorem upgrade_loop_terminates_witness :
    upgradeLoop 200 wEnums (totalFuel wEnums + 1) (baselineFrom wEnums).1
        (baselineFrom wEnums).2 =
      upgradeLoop 200 wEnums (totalFuel wEnums) (baselineFrom wEnums).1
        (baselineFrom wEnums).2 :=
  (upgrade_loop_terminates 200 wCatalog [] none false wEnums (by decide!)
    (by decide!)).2.2 (totalFuel wEnums + 1) (Nat.le_succ _)

end Ateema
